import Mathlib

/-!
# CAPL Signal Transformer — verification of the transformation engine

Shallow embedding of the repository's deterministic core:

* `performLocalTransformation` (services/transformer, src/unnamed/part_000):
  the interactive engine.  JavaScript strings are modelled as `List Char`
  wrapped in `String`; the `RegExp` built from the escaped pattern is
  modelled by `escapeRegex` / `regexLiteral` (a fully escaped pattern
  denotes a literal-substring matcher), and `String.prototype.replace`'s
  global replacement — including the `$$`/`$&`/backtick/quote substitution
  patterns JavaScript applies to the replacement string — by
  `jsReplaceAll` / `expandRepl`.  `Array.prototype.sort` (stable since
  ES2019) with comparator `lenB - lenA` is modelled by the stable
  insertion sort `sortDesc`.
* `performTransformation` (the engine embedded in `NODE_CLI_TEMPLATE`,
  src/constants.ts) together with the template's argument handling
  (`cliMain`); file reads and `JSON.parse` are parameters.
* `handleMappingFileUpload` (src/App.tsx; src/components/MappingEditor.tsx
  `handleFileUpload` has the same logic): the JSON mapping import.

JS strings are sequences of UTF-16 units; we use Lean `Char`, which agrees
on all inputs without surrogate pairs (all signal names in scope).
-/

/-! ## Data model (src/unnamed/part_001, types) -/

inductive TestMode where
  | HIL : TestMode
  | SIL : TestMode
deriving DecidableEq

structure SignalMapping where
  id : String
  realSignal : String
  simSignal : String
  description : Option String := none
deriving DecidableEq

structure TransformationResult where
  code : String
  changes : Nat
deriving DecidableEq

/-- The search-pattern field for the given mode:
`mode === TestMode.SIL ? map.realSignal : map.simSignal`. -/
def sourceOf (mode : TestMode) (m : SignalMapping) : String :=
  match mode with
  | TestMode.SIL => m.realSignal
  | TestMode.HIL => m.simSignal

/-- The replacement field for the given mode:
`mode === TestMode.SIL ? map.simSignal : map.realSignal`. -/
def targetOf (mode : TestMode) (m : SignalMapping) : String :=
  match mode with
  | TestMode.SIL => m.simSignal
  | TestMode.HIL => m.realSignal

/-- The sort key used by the comparator `(a, b) => lenB - lenA`. -/
def sortKey (mode : TestMode) (m : SignalMapping) : Nat :=
  (sourceOf mode m).length

/-- The opposite transformation direction (SIL ↔ HIL). -/
def oppMode : TestMode → TestMode
  | TestMode.SIL => TestMode.HIL
  | TestMode.HIL => TestMode.SIL

/-- The string value of a `TestMode` enum member (`TestMode.SIL === 'SIL'`). -/
def modeString : TestMode → String
  | TestMode.SIL => "SIL"
  | TestMode.HIL => "HIL"

/-! ## Regex escaping (`source.replace(/[.*+?^${}()|[\]\\]/g, '\\$&')`) -/

/-- The character class of `/[.*+?^${}()|[\]\\]/g`. -/
def metachars : List Char :=
  ['.', '*', '+', '?', '^', '$', '\x7b', '\x7d', '(', ')', '|', '[', ']', '\\']

/-- `source.replace(/[.*+?^${}()|[\]\\]/g, '\\$&')`: prefix every regex
metacharacter with a backslash. -/
def escapeRegex : List Char → List Char
  | [] => []
  | c :: rest =>
      if c ∈ metachars then '\\' :: c :: escapeRegex rest
      else c :: escapeRegex rest

/-- Interpretation of `new RegExp(p)` for the fragment of regex syntax the
engine generates: a pattern consisting only of backslash-escaped
metacharacters and literal non-metacharacters denotes a literal substring
matcher, and `regexLiteral p` returns the literal string it matches.
Patterns outside this fragment (which the engine never produces, see
`regexLiteral_escapeRegex`) map to `none`. -/
def regexLiteral : List Char → Option (List Char)
  | [] => some []
  | c :: rest =>
      if c = '\\' then
        match rest with
        | [] => none
        | c2 :: rest2 =>
            if c2 ∈ metachars then (regexLiteral rest2).map (fun l => c2 :: l)
            else none
      else if c ∈ metachars then none
      else (regexLiteral rest).map (fun l => c :: l)

/-! ## Global replacement (`String.prototype.replace` with a `g` regex) -/

/-- Does `pat` occur at the head of `s`? -/
def matchesHere : List Char → List Char → Bool
  | [], _ => true
  | _ :: _, [] => false
  | p :: ps, c :: cs => p = c && matchesHere ps cs

/-- JavaScript `GetSubstitution` for a regex with no capture groups:
expand the replacement string at one match.  `$$` yields `$`; `$&` the
matched substring; `$` + U+0060 (backtick) the part of the subject before
the match; `$` + U+0027 (quote) the part after it; every other character,
and every other `$`-sequence (such as `$1` when the pattern has no groups),
is copied literally. -/
def expandRepl (matched before after : List Char) : List Char → List Char
  | [] => []
  | [c] => [c]
  | c :: c2 :: rest2 =>
      if c = '$' then
        if c2 = '$' then '$' :: expandRepl matched before after rest2
        else if c2 = '&' then matched ++ expandRepl matched before after rest2
        else if c2.toNat = 96 then before ++ expandRepl matched before after rest2
        else if c2.toNat = 39 then after ++ expandRepl matched before after rest2
        else '$' :: expandRepl matched before after (c2 :: rest2)
      else c :: expandRepl matched before after (c2 :: rest2)

/-- Global, left-to-right, non-overlapping replacement of the literal
pattern `pat`, with JavaScript replacement-string expansion.  `pre` is the
already-consumed prefix of the original subject (JavaScript's `` $` ``
refers to the original string, and the suffix after a match is exactly the
unconsumed remainder).  The scan is driven by a fuel counter so that the
recursion is structural (hence computable by the kernel); any fuel of at
least the subject's length is enough, since every step consumes at least
one character of the subject. -/
def jsReplaceAllFuel (pat repl : List Char) : Nat → List Char → List Char → List Char
  | 0, _, _ => []
  | _ + 1, _, [] => []
  | fuel + 1, pre, c :: rest =>
      if matchesHere pat (c :: rest) then
        expandRepl pat pre (rest.drop (pat.length - 1)) repl
          ++ jsReplaceAllFuel pat repl fuel (pre ++ pat) (rest.drop (pat.length - 1))
      else
        c :: jsReplaceAllFuel pat repl fuel (pre ++ [c]) rest

/-- `s.replace(regex, repl)` for the literal regex `pat` with the `g`
flag.  The engine only ever calls this with a nonempty pattern (rules with
an empty pattern are skipped by the `!source || !target` guard). -/
def jsReplaceAll (pat repl s : List Char) : List Char :=
  if pat = [] then s else jsReplaceAllFuel pat repl s.length [] s

/-- Fuel-driven scan for `(s.match(regex) ?? []).length`: the number of
left-to-right non-overlapping occurrences of the literal pattern. -/
def countMatchesFuel (pat : List Char) : Nat → List Char → Nat
  | 0, _ => 0
  | _ + 1, [] => 0
  | fuel + 1, c :: rest =>
      if matchesHere pat (c :: rest) then
        countMatchesFuel pat fuel (rest.drop (pat.length - 1)) + 1
      else
        countMatchesFuel pat fuel rest

/-- `(s.match(regex) ?? []).length` for the literal regex `pat` with the
`g` flag. -/
def countMatches (pat s : List Char) : Nat := countMatchesFuel pat s.length s

/-! ## Stable descending sort (`[...mappings].sort((a, b) => lenB - lenA)`,
stable per ES2019) -/

/-- Insert `x` before the first element whose key is not larger; on ties
the earlier (original-order) element stays first. -/
def insertDesc {α : Type} (key : α → Nat) (x : α) : List α → List α
  | [] => [x]
  | y :: ys => if key x < key y then y :: insertDesc key x ys else x :: y :: ys

/-- Stable insertion sort by descending key. -/
def sortDesc {α : Type} (key : α → Nat) : List α → List α
  | [] => []
  | y :: ys => insertDesc key y (sortDesc key ys)

/-! ## The interactive engine (src/unnamed/part_000) -/

/-- One iteration of `sortedMappings.forEach((map) => ...)`, acting on the
pair (current text, running change count). -/
def applyRule (mode : TestMode) (st : String × Nat) (map : SignalMapping) : String × Nat :=
  let source := sourceOf mode map
  let target := targetOf mode map
  if source = "" ∨ target = "" then st
  else
    let escapedSource := escapeRegex source.toList
    let pat := (regexLiteral escapedSource).getD []
    let k := countMatches pat st.1.toList
    if k = 0 then st
    else (String.mk (jsReplaceAll pat target.toList st.1.toList), st.2 + k)

/-- `const sortedMappings = [...mappings].sort((a, b) => lenB - lenA)`. -/
def sortedMappings (mode : TestMode) (mappings : List SignalMapping) : List SignalMapping :=
  sortDesc (sortKey mode) mappings

/-- `performLocalTransformation` from the transformer service. -/
def performLocalTransformation (code : String) (mode : TestMode)
    (mappings : List SignalMapping) : TransformationResult :=
  let st := (sortedMappings mode mappings).foldl (applyRule mode) (code, 0)
  ⟨st.1, st.2⟩

/-- Is the rule not skipped by the `if (!source || !target) return;` guard? -/
def activeRule (mode : TestMode) (r : SignalMapping) : Bool :=
  if sourceOf mode r = "" ∨ targetOf mode r = "" then false else true

/-! ## Literal-replacement reference semantics (the spec's words)

The spec claims replacement text is inserted "raw"; these definitions give
that semantics for comparison with the JavaScript expansion above. -/

/-- Global replacement where the replacement is inserted verbatim
(fuel-driven like `jsReplaceAllFuel`). -/
def replaceAllLiteralFuel (pat repl : List Char) : Nat → List Char → List Char
  | 0, _ => []
  | _ + 1, [] => []
  | fuel + 1, c :: rest =>
      if matchesHere pat (c :: rest) then
        repl ++ replaceAllLiteralFuel pat repl fuel (rest.drop (pat.length - 1))
      else
        c :: replaceAllLiteralFuel pat repl fuel rest

/-- `jsReplaceAll` with verbatim replacement insertion. -/
def replaceAllLiteral (pat repl s : List Char) : List Char :=
  if pat = [] then s else replaceAllLiteralFuel pat repl s.length s

/-- No `$` in the string is followed by `$`, `&`, U+0060 or U+0027 — the
condition under which JavaScript's replacement expansion is the identity. -/
def noSpecialDollar : List Char → Bool
  | [] => true
  | [_] => true
  | c :: c2 :: rest2 =>
      if c = '$' then
        if c2 = '$' ∨ c2 = '&' ∨ c2.toNat = 96 ∨ c2.toNat = 39 then false
        else noSpecialDollar (c2 :: rest2)
      else noSpecialDollar (c2 :: rest2)

/-- `applyRule` with verbatim replacement insertion. -/
def applyRuleLiteral (mode : TestMode) (st : String × Nat) (map : SignalMapping) : String × Nat :=
  let source := sourceOf mode map
  let target := targetOf mode map
  if source = "" ∨ target = "" then st
  else
    let escapedSource := escapeRegex source.toList
    let pat := (regexLiteral escapedSource).getD []
    let k := countMatches pat st.1.toList
    if k = 0 then st
    else (String.mk (replaceAllLiteral pat target.toList st.1.toList), st.2 + k)

/-- The engine with verbatim replacement insertion (the spec's reading). -/
def performLiteralTransformation (code : String) (mode : TestMode)
    (mappings : List SignalMapping) : TransformationResult :=
  let st := (sortedMappings mode mappings).foldl (applyRuleLiteral mode) (code, 0)
  ⟨st.1, st.2⟩

/-! ## Character-level view, used for the round-trip analysis -/

/-- The effect of one single-character rule on one character. -/
def applyCharRule (mode : TestMode) (c : Char) (r : SignalMapping) : Char :=
  if (sourceOf mode r).toList = [c] then (targetOf mode r).toList.headD c else c

/-- Sequential application of single-character rules to one character. -/
def charSubst (mode : TestMode) (rules : List SignalMapping) (c : Char) : Char :=
  rules.foldl (applyCharRule mode) c

/-! ## The batch CLI artifact (NODE_CLI_TEMPLATE, src/constants.ts) -/

/-- JavaScript `a || b` for strings (the empty string is falsy). -/
def jsOrElse (a b : String) : String := if a = "" then b else a

/-- The template's sort key:
`mode === TestMode.SIL ? (a.realSignal || "").length : (a.simSignal || "").length`. -/
def cliSortKey (mode : String) (a : SignalMapping) : Nat :=
  if mode = "SIL" then (jsOrElse a.realSignal "").length
  else (jsOrElse a.simSignal "").length

/-- One iteration of the template's `sortedMappings.forEach`. -/
def cliApplyRule (mode : String) (st : String × Nat) (map : SignalMapping) : String × Nat :=
  let source := if mode = "SIL" then map.realSignal else map.simSignal
  let target := if mode = "SIL" then map.simSignal else map.realSignal
  if source = "" ∨ target = "" then st
  else
    let escapedSource := escapeRegex source.toList
    let pat := (regexLiteral escapedSource).getD []
    let k := countMatches pat st.1.toList
    if k = 0 then st
    else (String.mk (jsReplaceAll pat target.toList st.1.toList), st.2 + k)

/-- `performTransformation` from the generated CLI script (its mode is the
raw string taken from `--mode=`, compared against `'SIL'`). -/
def performTransformation (code : String) (mode : String)
    (mappings : List SignalMapping) : TransformationResult :=
  let st := (sortDesc (cliSortKey mode) mappings).foldl (cliApplyRule mode) (code, 0)
  ⟨st.1, st.2⟩

/-! ## JSON model (mapping import, CLI `--mapping` file) -/

inductive Json where
  | null : Json
  | bool (b : Bool) : Json
  | num (n : Int) : Json
  | str (s : String) : Json
  | arr (elems : List Json) : Json
  | obj (fields : List (String × Json)) : Json

/-- Look a key up in a JSON object's field list. -/
def jsonLookup (k : String) : List (String × Json) → Option Json
  | [] => none
  | (k', v) :: rest => if k' = k then some v else jsonLookup k rest

/-- Modelled from the spec: "rule-shaped records (objects with string
`id`, `realSignal`, and `simSignal` fields)" — the element validation the
spec requires of the mapping import (the TypeScript code has no such
check; this definition exists to state the claim and is compared with the
code's behaviour). -/
def isStringField (k : String) (fields : List (String × Json)) : Bool :=
  match jsonLookup k fields with
  | some (Json.str _) => true
  | _ => false

/-- Modelled from the spec: a rule-shaped record. -/
def specRuleShaped : Json → Bool
  | Json.obj fields =>
      isStringField "id" fields && isStringField "realSignal" fields
        && isStringField "simSignal" fields
  | _ => false

/-- `handleMappingFileUpload` (src/App.tsx) after the file read:
`parsed` is `none` when `JSON.parse` threw.  The TypeScript stores the
parsed value as the mapping array without inspecting its elements, so the
store is modelled as the list of raw JSON elements; the returned Boolean
records whether an error was logged (`addLog("Error: ...")` /
`alert(...)` in MappingEditor's `handleFileUpload`, which has the same
logic). -/
def handleMappingFileUpload (parsed : Option Json) (mappings : List Json) :
    List Json × Bool :=
  match parsed with
  | none => (mappings, true)
  | some j =>
    match j with
    | Json.arr elems => (elems, false)
    | _ => (mappings, true)

/-! ## The CLI template's main execution -/

/-- Extract a string field of a JSON object, defaulting to `""`.  A
missing field read off a parsed-but-unvalidated rule object is
`undefined` in JavaScript; both `undefined` and `""` are falsy, so the
engine's `!source || !target` guard and the `(x || "").length` sort key
treat the two identically, which makes `""` a faithful default. -/
def getStrField (k : String) (fields : List (String × Json)) : String :=
  match jsonLookup k fields with
  | some (Json.str s) => s
  | _ => ""

/-- A parsed external-mapping array element as the CLI consumes it. -/
def ruleOfJson : Json → SignalMapping
  | Json.obj fields =>
      ⟨getStrField "id" fields, getStrField "realSignal" fields,
        getStrField "simSignal" fields, none⟩
  | _ => ⟨"", "", "", none⟩

/-- JavaScript `a.startsWith(p)`: `p` is a prefix of `a` (expressed through
`matchesHere` so that it evaluates by structural recursion). -/
def strStartsWith (a p : String) : Bool := matchesHere p.toList a.toList

/-- Observable outcome of one CLI invocation. -/
inductive CliOutcome where
  | usageExit : CliOutcome
  | errorExit (msg : String) : CliOutcome
  | success (outPath outText : String) (ruleCount changes : Nat) : CliOutcome
deriving DecidableEq

/-- The template's main path once mappings are resolved: check the input
file, read it, transform, write the output. -/
def cliRun (readFile : String → Option String)
    (inputFile outputFile mode : String)
    (activeMappings : List SignalMapping) : CliOutcome :=
  match readFile inputFile with
  | none => CliOutcome.errorExit ("Input file not found: " ++ inputFile)
  | some code =>
    let result := performTransformation code mode activeMappings
    CliOutcome.success outputFile result.code activeMappings.length result.changes

/-- The generated CLI's top-level execution (src/constants.ts,
NODE_CLI_TEMPLATE).  `args` is `process.argv.slice(2)`; `readFile` models
`fs.existsSync` + `fs.readFileSync` and `parseJson` models `JSON.parse`
(`none` = throw).  Note the usage check counts every argument, option
flags included. -/
def cliMain (embedded : List SignalMapping) (readFile : String → Option String)
    (parseJson : String → Option Json) (args : List String) : CliOutcome :=
  if args.length < 2 then CliOutcome.usageExit
  else
    let inputFile := args.getD 0 ""
    let outputFile := args.getD 1 ""
    let modeArg := args.find? (fun a => strStartsWith a "--mode=")
    let mappingArg := args.find? (fun a => strStartsWith a "--mapping=")
    let mode := match modeArg with
      | some a => ((a.splitOn "=").getD 1 "").toUpper
      | none => "SIL"
    match mappingArg with
    | some a =>
      let mappingPath := (a.splitOn "=").getD 1 ""
      match readFile mappingPath with
      | none => CliOutcome.errorExit ("Mapping file not found: " ++ mappingPath)
      | some content =>
        match parseJson content with
        | none => CliOutcome.errorExit "Error loading mapping file"
        | some (Json.arr elems) =>
            cliRun readFile inputFile outputFile mode (elems.map ruleOfJson)
        | some _ => CliOutcome.errorExit "Mapping file must contain a JSON array."
    | none => cliRun readFile inputFile outputFile mode embedded

/-! ### The escaped pattern denotes the literal source string -/

theorem backslash_mem_metachars : '\\' ∈ metachars := by decide

theorem regexLiteral_escapeRegex (l : List Char) :
    regexLiteral (escapeRegex l) = some l := by
  induction l with
  | nil => rfl
  | cons c rest ih =>
    by_cases h : c ∈ metachars
    · simp [escapeRegex, regexLiteral, h, ih]
    · have hc : ¬ c = '\\' := fun he => h (he ▸ backslash_mem_metachars)
      rw [escapeRegex, if_neg h, regexLiteral.eq_def]
      simp [hc, h, ih]

/-- `applyRule` with the regex pipeline collapsed to its literal meaning. -/
theorem applyRule_eq (mode : TestMode) (st : String × Nat) (r : SignalMapping) :
    applyRule mode st r =
      if sourceOf mode r = "" ∨ targetOf mode r = "" then st
      else if countMatches (sourceOf mode r).toList st.1.toList = 0 then st
      else
        (String.mk (jsReplaceAll (sourceOf mode r).toList (targetOf mode r).toList st.1.toList),
          st.2 + countMatches (sourceOf mode r).toList st.1.toList) := by
  simp [applyRule, regexLiteral_escapeRegex]

/-! ### String helpers -/

theorem string_toList_inj {s t : String} (h : s.toList = t.toList) : s = t := by
  cases s
  cases t
  simp only [String.toList] at h
  rw [h]

theorem string_eq_empty_iff (s : String) : s = "" ↔ s.toList = [] := by
  constructor
  · intro h
    rw [h]
    rfl
  · intro h
    exact string_toList_inj h

/-! ### The stable descending sort -/

theorem insertDesc_perm {α : Type} (key : α → Nat) (x : α) (l : List α) :
    (insertDesc key x l).Perm (x :: l) := by
  induction l with
  | nil => simp [insertDesc]
  | cons y ys ih =>
    by_cases h : key x < key y
    · simpa [insertDesc, h] using ((ih.cons y).trans (List.Perm.swap x y ys))
    · simp [insertDesc, h]

theorem sortDesc_perm {α : Type} (key : α → Nat) (l : List α) :
    (sortDesc key l).Perm l := by
  induction l with
  | nil => simp [sortDesc]
  | cons y ys ih =>
    exact (insertDesc_perm key y (sortDesc key ys)).trans (ih.cons y)

theorem mem_insertDesc {α : Type} {key : α → Nat} {x a : α} {l : List α} :
    a ∈ insertDesc key x l ↔ a = x ∨ a ∈ l := by
  constructor
  · intro h
    simpa using (insertDesc_perm key x l).mem_iff.mp h
  · intro h
    apply (insertDesc_perm key x l).mem_iff.mpr
    simpa using h

theorem mem_sortDesc {α : Type} {key : α → Nat} {a : α} {l : List α} :
    a ∈ sortDesc key l ↔ a ∈ l := (sortDesc_perm key l).mem_iff

theorem insertDesc_sorted {α : Type} (key : α → Nat) (x : α) {l : List α}
    (h : l.Pairwise (fun a b => key b ≤ key a)) :
    (insertDesc key x l).Pairwise (fun a b => key b ≤ key a) := by
  induction l with
  | nil => simp [insertDesc]
  | cons y ys ih =>
    rcases List.pairwise_cons.mp h with ⟨hy, hys⟩
    by_cases hk : key x < key y
    · rw [insertDesc, if_pos hk]
      refine List.pairwise_cons.mpr ⟨?_, ih hys⟩
      intro z hz
      rcases mem_insertDesc.mp hz with rfl | hz'
      · exact Nat.le_of_lt hk
      · exact hy z hz'
    · rw [insertDesc, if_neg hk]
      refine List.pairwise_cons.mpr ⟨?_, h⟩
      intro z hz
      rcases List.mem_cons.mp hz with rfl | hz'
      · exact Nat.le_of_not_lt hk
      · exact Nat.le_trans (hy z hz') (Nat.le_of_not_lt hk)

theorem sortDesc_sorted {α : Type} (key : α → Nat) (l : List α) :
    (sortDesc key l).Pairwise (fun a b => key b ≤ key a) := by
  induction l with
  | nil => simp [sortDesc]
  | cons y ys ih => exact insertDesc_sorted key y ih

theorem insertDesc_of_max {α : Type} (key : α → Nat) (x : α) {l : List α}
    (h : ∀ z ∈ l, ¬ key x < key z) : insertDesc key x l = x :: l := by
  cases l with
  | nil => rfl
  | cons y ys => simp [insertDesc, h y (List.mem_cons_self y ys)]

theorem filter_insertDesc_pos {α : Type} (key : α → Nat) (p : α → Bool) (x : α) {l : List α}
    (hl : l.Pairwise (fun a b => key b ≤ key a)) (hx : p x = true) :
    (insertDesc key x l).filter p = insertDesc key x (l.filter p) := by
  induction l with
  | nil => simp [insertDesc, hx]
  | cons y ys ih =>
    rcases List.pairwise_cons.mp hl with ⟨hy, hys⟩
    by_cases hk : key x < key y
    · rw [insertDesc, if_pos hk]
      by_cases hp : p y = true
      · rw [List.filter_cons, if_pos hp, List.filter_cons, if_pos hp, ih hys]
        have hstep : insertDesc key x (y :: List.filter p ys)
            = y :: insertDesc key x (List.filter p ys) := by
          rw [insertDesc, if_pos hk]
        rw [hstep]
      · rw [List.filter_cons, if_neg hp, List.filter_cons, if_neg hp, ih hys]
    · rw [insertDesc, if_neg hk]
      have hmax : ∀ z ∈ (y :: ys).filter p, ¬ key x < key z := by
        intro z hz
        have hz' := List.mem_of_mem_filter hz
        rcases List.mem_cons.mp hz' with rfl | hz''
        · exact hk
        · exact fun hlt => hk (Nat.lt_of_lt_of_le hlt (hy z hz''))
      rw [insertDesc_of_max key x hmax, List.filter_cons, if_pos hx]

theorem filter_insertDesc_neg {α : Type} (key : α → Nat) (p : α → Bool) (x : α) (l : List α)
    (hx : p x = false) :
    (insertDesc key x l).filter p = l.filter p := by
  induction l with
  | nil => simp [insertDesc, hx]
  | cons y ys ih =>
    by_cases hk : key x < key y
    · rw [insertDesc, if_pos hk, List.filter_cons, List.filter_cons, ih]
    · rw [insertDesc, if_neg hk, List.filter_cons, if_neg (by simp [hx])]

theorem sortDesc_filter {α : Type} (key : α → Nat) (p : α → Bool) (l : List α) :
    (sortDesc key l).filter p = sortDesc key (l.filter p) := by
  induction l with
  | nil => simp [sortDesc]
  | cons y ys ih =>
    by_cases hp : p y
    · rw [sortDesc, filter_insertDesc_pos key p y (sortDesc_sorted key ys) hp, ih,
        List.filter_cons, if_pos (by simpa using hp), sortDesc]
    · rw [sortDesc, filter_insertDesc_neg key p y _ (by simpa using hp), ih,
        List.filter_cons, if_neg (by simpa using hp)]

theorem sortDesc_const_key {α : Type} (key : α → Nat) (k : Nat) {l : List α}
    (h : ∀ x ∈ l, key x = k) : sortDesc key l = l := by
  induction l with
  | nil => rfl
  | cons y ys ih =>
    have hys : ∀ x ∈ ys, key x = k := fun x hx => h x (List.mem_cons_of_mem y hx)
    rw [sortDesc, ih hys]
    cases ys with
    | nil => rfl
    | cons z zs =>
      have : ¬ key y < key z := by
        rw [h y (List.mem_cons_self _ _), h z (by simp)]
        exact Nat.lt_irrefl k
      simp [insertDesc, this]

theorem sortDesc_stable {α : Type} (key : α → Nat) (l : List α) (k : Nat) :
    (sortDesc key l).filter (fun a => key a == k) = l.filter (fun a => key a == k) := by
  rw [sortDesc_filter]
  apply sortDesc_const_key key k
  intro x hx
  simpa using List.of_mem_filter hx

/-! ### The engine's fold: change count and skipped rules -/

theorem applyRule_cases (mode : TestMode) (st : String × Nat) (r : SignalMapping) :
    applyRule mode st r = st ∨
      ∃ t k, 0 < k ∧ applyRule mode st r = (t, st.2 + k) := by
  rw [applyRule_eq]
  by_cases h1 : sourceOf mode r = "" ∨ targetOf mode r = ""
  · left
    rw [if_pos h1]
  · rw [if_neg h1]
    by_cases h2 : countMatches (sourceOf mode r).toList st.1.toList = 0
    · left
      rw [if_pos h2]
    · right
      exact ⟨_, _, Nat.pos_of_ne_zero h2, by rw [if_neg h2]⟩

theorem foldl_applyRule_changes_le (mode : TestMode) (l : List SignalMapping)
    (st : String × Nat) : st.2 ≤ (l.foldl (applyRule mode) st).2 := by
  induction l generalizing st with
  | nil => simp
  | cons r rest ih =>
    rw [List.foldl_cons]
    rcases applyRule_cases mode st r with h | ⟨t, k, hk, h⟩
    · rw [h]
      exact ih st
    · rw [h]
      exact Nat.le_trans (Nat.le_add_right st.2 k) (ih (t, st.2 + k))

theorem foldl_applyRule_changes_eq (mode : TestMode) (l : List SignalMapping)
    (st : String × Nat) (h : (l.foldl (applyRule mode) st).2 = st.2) :
    (l.foldl (applyRule mode) st).1 = st.1 := by
  induction l generalizing st with
  | nil => simp
  | cons r rest ih =>
    rw [List.foldl_cons] at h ⊢
    rcases applyRule_cases mode st r with he | ⟨t, k, hk, he⟩
    · rw [he] at h ⊢
      exact ih st h
    · exfalso
      rw [he] at h
      have hle : st.2 + k ≤ (rest.foldl (applyRule mode) (t, st.2 + k)).2 :=
        foldl_applyRule_changes_le mode rest (t, st.2 + k)
      omega

theorem activeRule_false_iff (mode : TestMode) (r : SignalMapping) :
    activeRule mode r = false ↔ (sourceOf mode r = "" ∨ targetOf mode r = "") := by
  unfold activeRule
  split_ifs with h <;> simp [h]

theorem applyRule_inactive (mode : TestMode) (st : String × Nat) (r : SignalMapping)
    (h : activeRule mode r = false) : applyRule mode st r = st := by
  rw [applyRule_eq, if_pos ((activeRule_false_iff mode r).mp h)]

theorem foldl_applyRule_filter (mode : TestMode) (l : List SignalMapping)
    (st : String × Nat) :
    l.foldl (applyRule mode) st = (l.filter (activeRule mode)).foldl (applyRule mode) st := by
  induction l generalizing st with
  | nil => rfl
  | cons r rest ih =>
    rw [List.foldl_cons, List.filter_cons]
    by_cases h : activeRule mode r = true
    · rw [if_pos h, List.foldl_cons]
      exact ih (applyRule mode st r)
    · have hf : activeRule mode r = false := by simpa using h
      rw [if_neg (by simp [hf]), applyRule_inactive mode st r hf]
      exact ih st

theorem activeRule_false_of_empty (mode : TestMode) (r : SignalMapping)
    (h : r.realSignal = "" ∨ r.simSignal = "") : activeRule mode r = false := by
  rw [activeRule_false_iff]
  cases mode <;> rcases h with h | h <;> simp [sourceOf, targetOf, h]

theorem performLocalTransformation_filter (code : String) (mode : TestMode)
    (l : List SignalMapping) :
    performLocalTransformation code mode l
      = performLocalTransformation code mode (l.filter (activeRule mode)) := by
  unfold performLocalTransformation sortedMappings
  rw [foldl_applyRule_filter, sortDesc_filter]

/-! ### Literal replacement vs JavaScript replacement expansion -/

theorem expandRepl_noSpecial (matched before after repl : List Char)
    (h : noSpecialDollar repl = true) :
    expandRepl matched before after repl = repl := by
  induction repl using noSpecialDollar.induct with
  | case1 => rfl
  | case2 c => rfl
  | case3 c2 rest2 hsp =>
    rw [noSpecialDollar, if_pos rfl, if_pos hsp] at h
    simp at h
  | case4 c2 rest2 hsp ih =>
    rw [noSpecialDollar, if_pos rfl, if_neg hsp] at h
    push_neg at hsp
    rcases hsp with ⟨h1, h2, h3, h4⟩
    rw [expandRepl, if_pos rfl, if_neg h1, if_neg h2, if_neg h3, if_neg h4, ih h]
  | case5 c c2 rest2 hc ih =>
    rw [noSpecialDollar, if_neg hc] at h
    rw [expandRepl, if_neg hc, ih h]

theorem jsReplaceFuel_literal (pat repl : List Char) (h : noSpecialDollar repl = true) :
    ∀ (fuel : Nat) (s pre : List Char),
      jsReplaceAllFuel pat repl fuel pre s = replaceAllLiteralFuel pat repl fuel s := by
  intro fuel
  induction fuel with
  | zero =>
    intro s pre
    rfl
  | succ n ih =>
    intro s pre
    cases s with
    | nil => rfl
    | cons c rest =>
      rw [jsReplaceAllFuel, replaceAllLiteralFuel]
      by_cases hm : matchesHere pat (c :: rest) = true
      · rw [if_pos hm, if_pos hm, expandRepl_noSpecial pat pre _ repl h, ih]
      · rw [if_neg hm, if_neg hm, ih]

theorem jsReplaceAll_literal (pat repl s : List Char) (h : noSpecialDollar repl = true) :
    jsReplaceAll pat repl s = replaceAllLiteral pat repl s := by
  unfold jsReplaceAll replaceAllLiteral
  by_cases hp : pat = []
  · rw [if_pos hp, if_pos hp]
  · rw [if_neg hp, if_neg hp, jsReplaceFuel_literal pat repl h s.length s []]

theorem applyRuleLiteral_eq (mode : TestMode) (st : String × Nat) (r : SignalMapping) :
    applyRuleLiteral mode st r =
      if sourceOf mode r = "" ∨ targetOf mode r = "" then st
      else if countMatches (sourceOf mode r).toList st.1.toList = 0 then st
      else
        (String.mk (replaceAllLiteral (sourceOf mode r).toList (targetOf mode r).toList
            st.1.toList),
          st.2 + countMatches (sourceOf mode r).toList st.1.toList) := by
  simp [applyRuleLiteral, regexLiteral_escapeRegex]

theorem applyRule_literal (mode : TestMode) (st : String × Nat) (r : SignalMapping)
    (h : noSpecialDollar (targetOf mode r).toList = true) :
    applyRule mode st r = applyRuleLiteral mode st r := by
  rw [applyRule_eq, applyRuleLiteral_eq, jsReplaceAll_literal _ _ _ h]

/-! ### The CLI template engine agrees with the interactive engine -/

theorem jsOrElse_empty (s : String) : jsOrElse s "" = s := by
  unfold jsOrElse
  split_ifs with h
  · exact h.symm
  · rfl

theorem cliSortKey_modeString (mode : TestMode) :
    cliSortKey (modeString mode) = sortKey mode := by
  funext a
  cases mode
  · have h : ¬ ("HIL" : String) = "SIL" := by decide
    simp [cliSortKey, sortKey, modeString, sourceOf, jsOrElse_empty, h]
  · simp [cliSortKey, sortKey, modeString, sourceOf, jsOrElse_empty]

theorem cliApplyRule_modeString (mode : TestMode) :
    cliApplyRule (modeString mode) = applyRule mode := by
  funext st r
  cases mode
  · have h : ¬ ("HIL" : String) = "SIL" := by decide
    simp [cliApplyRule, applyRule, modeString, sourceOf, targetOf, h]
  · simp [cliApplyRule, applyRule, modeString, sourceOf, targetOf]

/-! ### Single-character rules act as character maps -/

theorem string_length_toList (s : String) : s.toList.length = s.length := by
  cases s
  rfl

theorem matchesHere_singleton (a c : Char) (cs : List Char) :
    matchesHere [a] (c :: cs) = true ↔ a = c := by
  simp [matchesHere]

theorem countMatchesFuel_singleton (a : Char) :
    ∀ (fuel : Nat) (s : List Char), s.length ≤ fuel →
      countMatchesFuel [a] fuel s = (s.filter (fun c => c == a)).length := by
  intro fuel
  induction fuel with
  | zero =>
    intro s hle
    have hs : s = [] := List.length_eq_zero.mp (Nat.le_zero.mp hle)
    subst hs
    rfl
  | succ n ih =>
    intro s hle
    cases s with
    | nil => rfl
    | cons c rest =>
      have hrest : rest.length ≤ n := by
        simpa using Nat.le_of_succ_le_succ (by simpa using hle)
      rw [countMatchesFuel]
      by_cases hm : matchesHere [a] (c :: rest) = true
      · have hac : a = c := (matchesHere_singleton a c rest).mp hm
        rw [if_pos hm]
        simp only [List.length_cons, List.length_nil, Nat.sub_self, List.drop_zero]
        rw [ih rest hrest]
        simp [List.filter_cons, ← hac]
      · have hac : ¬ a = c := fun he => hm ((matchesHere_singleton a c rest).mpr he)
        have hca : ¬ c = a := fun he => hac he.symm
        rw [if_neg hm, ih rest hrest]
        simp [List.filter_cons, hca]

theorem countMatches_singleton (a : Char) (s : List Char) :
    countMatches [a] s = (s.filter (fun c => c == a)).length :=
  countMatchesFuel_singleton a s.length s (Nat.le_refl _)

theorem expandRepl_single (m be af : List Char) (b : Char) :
    expandRepl m be af [b] = [b] := by
  simp only [expandRepl]

theorem jsReplaceFuel_singleton (a b : Char) :
    ∀ (fuel : Nat) (s pre : List Char), s.length ≤ fuel →
      jsReplaceAllFuel [a] [b] fuel pre s
        = s.map (fun c => if c = a then b else c) := by
  intro fuel
  induction fuel with
  | zero =>
    intro s pre hle
    have hs : s = [] := List.length_eq_zero.mp (Nat.le_zero.mp hle)
    subst hs
    rfl
  | succ n ih =>
    intro s pre hle
    cases s with
    | nil => rfl
    | cons c rest =>
      have hrest : rest.length ≤ n := by
        simpa using Nat.le_of_succ_le_succ (by simpa using hle)
      rw [jsReplaceAllFuel]
      by_cases hm : matchesHere [a] (c :: rest) = true
      · have hac : a = c := (matchesHere_singleton a c rest).mp hm
        rw [if_pos hm, expandRepl_single]
        simp only [List.length_cons, List.length_nil, Nat.sub_self, List.drop_zero]
        rw [ih rest _ hrest]
        simp [List.map_cons, ← hac]
      · have hac : ¬ a = c := fun he => hm ((matchesHere_singleton a c rest).mpr he)
        have hca : ¬ c = a := fun he => hac he.symm
        rw [if_neg hm, ih rest _ hrest]
        simp [List.map_cons, hca]

theorem applyCharRule_eq (mode : TestMode) (r : SignalMapping) (a b : Char)
    (hs : (sourceOf mode r).toList = [a]) (ht : (targetOf mode r).toList = [b]) (c : Char) :
    applyCharRule mode c r = if c = a then b else c := by
  unfold applyCharRule
  rw [hs, ht]
  by_cases hca : c = a
  · subst hca
    simp
  · have hne : ¬ ([a] = [c]) := by
      simp only [List.cons.injEq, and_true]
      exact fun h => hca h.symm
    rw [if_neg hne, if_neg hca]

theorem applyRule_singleton (mode : TestMode) (r : SignalMapping) (a b : Char)
    (hs : (sourceOf mode r).toList = [a]) (ht : (targetOf mode r).toList = [b])
    (s : String) (n : Nat) :
    (applyRule mode (s, n) r).1.toList
      = s.toList.map (fun c => applyCharRule mode c r) := by
  have hsne : ¬ sourceOf mode r = "" := by
    rw [string_eq_empty_iff, hs]
    simp
  have htne : ¬ targetOf mode r = "" := by
    rw [string_eq_empty_iff, ht]
    simp
  have hfun : ∀ c ∈ s.toList, applyCharRule mode c r = if c = a then b else c :=
    fun c _ => applyCharRule_eq mode r a b hs ht c
  rw [applyRule_eq, if_neg (by simp [hsne, htne])]
  by_cases hk : countMatches (sourceOf mode r).toList s.toList = 0
  · rw [if_pos hk]
    rw [hs, countMatches_singleton] at hk
    have hnoa : ∀ c ∈ s.toList, ¬ (c == a) = true := by
      rw [← List.filter_eq_nil_iff]
      exact List.length_eq_zero.mp hk
    have : s.toList.map (fun c => applyCharRule mode c r) = s.toList.map (fun c => c) := by
      apply List.map_congr_left
      intro c hc
      rw [hfun c hc, if_neg (by simpa using hnoa c hc)]
    rw [this, List.map_id']
  · rw [if_neg hk]
    show (jsReplaceAll (sourceOf mode r).toList (targetOf mode r).toList s.toList)
      = s.toList.map (fun c => applyCharRule mode c r)
    rw [hs, ht]
    unfold jsReplaceAll
    rw [if_neg (by simp), jsReplaceFuel_singleton a b s.toList.length s.toList []
      (Nat.le_refl _)]
    exact List.map_congr_left (fun c hc => (hfun c hc).symm)

theorem foldl_singleton_rules (mode : TestMode) :
    ∀ (R : List SignalMapping),
      (∀ r ∈ R, (∃ a, (sourceOf mode r).toList = [a]) ∧ ∃ b, (targetOf mode r).toList = [b]) →
      ∀ (s : String) (n : Nat),
        ((R.foldl (applyRule mode) (s, n)).1).toList = s.toList.map (charSubst mode R) := by
  intro R
  induction R with
  | nil =>
    intro _ s n
    have hid : charSubst mode [] = fun c => c := funext fun c => rfl
    simp [hid]
  | cons r rest ih =>
    intro h1 s n
    rcases h1 r (List.mem_cons_self _ _) with ⟨⟨a, ha⟩, ⟨b, hb⟩⟩
    rw [List.foldl_cons]
    have ihapp := ih (fun r' hr' => h1 r' (List.mem_cons_of_mem _ hr'))
      (applyRule mode (s, n) r).1 (applyRule mode (s, n) r).2
    rw [Prod.mk.eta] at ihapp
    rw [ihapp, applyRule_singleton mode r a b ha hb s n, List.map_map]
    have hcharfun : (charSubst mode rest ∘ fun c => applyCharRule mode c r)
        = charSubst mode (r :: rest) := by
      funext c
      simp [charSubst]
    rw [hcharfun]

theorem charSubst_of_no_source (mode : TestMode) (R : List SignalMapping) (c : Char)
    (h : ∀ r ∈ R, (sourceOf mode r).toList ≠ [c]) : charSubst mode R c = c := by
  induction R with
  | nil => rfl
  | cons r rest ih =>
    have hstep : applyCharRule mode c r = c := by
      unfold applyCharRule
      rw [if_neg (h r (List.mem_cons_self _ _))]
    unfold charSubst
    rw [List.foldl_cons, hstep]
    exact ih (fun r' hr' => h r' (List.mem_cons_of_mem _ hr'))

theorem charSubst_mem_targets (mode : TestMode) :
    ∀ (R : List SignalMapping),
      (∀ r ∈ R, ∃ b, (targetOf mode r).toList = [b]) →
      ∀ c, charSubst mode R c = c
        ∨ ∃ r ∈ R, (targetOf mode r).toList = [charSubst mode R c] := by
  intro R
  induction R with
  | nil =>
    intro _ c
    left
    rfl
  | cons r rest ih =>
    intro hb c
    have hx : charSubst mode (r :: rest) c = charSubst mode rest (applyCharRule mode c r) := by
      simp [charSubst]
    have hdc : applyCharRule mode c r = c
        ∨ (targetOf mode r).toList = [applyCharRule mode c r] := by
      rcases hb r (List.mem_cons_self _ _) with ⟨b, hbr⟩
      unfold applyCharRule
      by_cases hsrc : (sourceOf mode r).toList = [c]
      · right
        rw [if_pos hsrc, hbr]
        rfl
      · left
        rw [if_neg hsrc]
    rcases ih (fun r' hr' => hb r' (List.mem_cons_of_mem _ hr')) (applyCharRule mode c r)
      with hrest | ⟨r', hr', htr'⟩
    · rcases hdc with hid | htgt
      · left
        rw [hx, hrest, hid]
      · right
        refine ⟨r, List.mem_cons_self _ _, ?_⟩
        rw [hx, hrest]
        exact htgt
    · right
      refine ⟨r', List.mem_cons_of_mem _ hr', ?_⟩
      rw [hx]
      exact htr'

/-! ### Round trip for single-character rule sets -/

theorem sourceOf_opp (mode : TestMode) (r : SignalMapping) :
    sourceOf (oppMode mode) r = targetOf mode r := by
  cases mode <;> rfl

theorem targetOf_opp (mode : TestMode) (r : SignalMapping) :
    targetOf (oppMode mode) r = sourceOf mode r := by
  cases mode <;> rfl

theorem roundtrip_char (mode : TestMode) :
    ∀ (R : List SignalMapping) (c : Char),
      (∀ r ∈ R, (∃ a, (sourceOf mode r).toList = [a]) ∧ ∃ b, (targetOf mode r).toList = [b]) →
      R.Pairwise (fun r s => targetOf mode r ≠ targetOf mode s) →
      R.Pairwise (fun r s => targetOf mode r ≠ sourceOf mode s ∧ targetOf mode s ≠ sourceOf mode r) →
      (∀ r ∈ R, (targetOf mode r).toList ≠ [c]) →
      charSubst (oppMode mode) R (charSubst mode R c) = c := by
  intro R
  induction R with
  | nil =>
    intro c _ _ _ _
    rfl
  | cons r rest ih =>
    intro c h1 h3 h4 hc
    rcases h1 r (List.mem_cons_self _ _) with ⟨⟨a, ha⟩, ⟨b, hb⟩⟩
    rcases List.pairwise_cons.mp h3 with ⟨h3r, h3rest⟩
    rcases List.pairwise_cons.mp h4 with ⟨h4r, h4rest⟩
    have hfwd : charSubst mode (r :: rest) c
        = charSubst mode rest (applyCharRule mode c r) := by
      simp [charSubst]
    have hbwd : ∀ d, charSubst (oppMode mode) (r :: rest) d
        = charSubst (oppMode mode) rest (applyCharRule (oppMode mode) d r) := by
      intro d
      simp [charSubst]
    by_cases hsrc : (sourceOf mode r).toList = [c]
    · -- c is r's pattern character: r rewrites it to b, nothing else touches it,
      -- and the opposite direction maps b straight back to c.
      have happ : applyCharRule mode c r = b := by
        unfold applyCharRule
        rw [if_pos hsrc, hb]
        rfl
      have hrestb : charSubst mode rest b = b := by
        apply charSubst_of_no_source
        intro s hs hbad
        rcases h4r s hs with ⟨hne, _⟩
        exact hne (string_toList_inj (hb.trans hbad.symm))
      have happ2 : applyCharRule (oppMode mode) b r = c := by
        unfold applyCharRule
        rw [sourceOf_opp, targetOf_opp, if_pos hb, hsrc]
        rfl
      rw [hfwd, happ, hrestb, hbwd, happ2]
      apply charSubst_of_no_source
      intro s hs hbad
      rw [sourceOf_opp] at hbad
      exact hc s (List.mem_cons_of_mem _ hs) hbad
    · -- c is not r's pattern character: r leaves it alone in both directions.
      have happ : applyCharRule mode c r = c := by
        unfold applyCharRule
        rw [if_neg hsrc]
      have hdneb : (targetOf mode r).toList ≠ [charSubst mode rest c] := by
        rcases charSubst_mem_targets mode rest
            (fun s hs => (h1 s (List.mem_cons_of_mem _ hs)).2) c with hid | ⟨s, hs, hts⟩
        · rw [hid]
          exact hc r (List.mem_cons_self _ _)
        · intro hbad
          exact h3r s hs (string_toList_inj (hbad.trans hts.symm))
      have hbstep : applyCharRule (oppMode mode) (charSubst mode rest c) r
          = charSubst mode rest c := by
        unfold applyCharRule
        rw [sourceOf_opp, if_neg hdneb]
      rw [hfwd, happ, hbwd, hbstep]
      exact ih c (fun s hs => h1 s (List.mem_cons_of_mem _ hs)) h3rest h4rest
        (fun s hs => hc s (List.mem_cons_of_mem _ hs))

/-! ### Engine-level helpers for the claim theorems -/

theorem mem_sortedMappings {mode : TestMode} {r : SignalMapping}
    {l : List SignalMapping} : r ∈ sortedMappings mode l ↔ r ∈ l :=
  mem_sortDesc

theorem performLocalTransformation_singleton_code (mode : TestMode)
    (R : List SignalMapping)
    (h1 : ∀ r ∈ R, (∃ a, (sourceOf mode r).toList = [a]) ∧ ∃ b, (targetOf mode r).toList = [b])
    (hkey : ∀ r ∈ R, sortKey mode r = 1) (s : String) :
    (performLocalTransformation s mode R).code.toList
      = s.toList.map (charSubst mode R) := by
  have hs : sortedMappings mode R = R := sortDesc_const_key _ 1 hkey
  show ((sortedMappings mode R).foldl (applyRule mode) (s, 0)).1.toList = _
  rw [hs]
  exact foldl_singleton_rules mode R h1 s 0

/-! ## The claims -/

/-- C1: `transform` applies the rules in descending order of the length of the
active-mode pattern field (`realSignal` in SIL, `simSignal` in HIL): the list
actually iterated, `sortedMappings`, is a permutation of the input that is
sorted by descending `sortKey` and, restricted to any fixed key, preserves the
input's relative order (stable tie-breaking).  In particular, with rules
`$Speed → A` and `$SpeedFront → B`, transforming `"$SpeedFront"` in SIL mode
yields `"B"` with `changes = 1`, never `"A" + "Front"`. -/
theorem C1_sort_longest_first_stable :
    (∀ (mode : TestMode) (mappings : List SignalMapping),
        (sortedMappings mode mappings).Perm mappings
      ∧ (sortedMappings mode mappings).Pairwise
          (fun a b => sortKey mode b ≤ sortKey mode a)
      ∧ ∀ k : Nat,
          (sortedMappings mode mappings).filter (fun m => sortKey mode m == k)
            = mappings.filter (fun m => sortKey mode m == k))
    ∧ performLocalTransformation "$SpeedFront" TestMode.SIL
        [⟨"1", "$Speed", "A", none⟩, ⟨"2", "$SpeedFront", "B", none⟩]
        = ⟨"B", 1⟩ := by
  constructor
  · intro mode mappings
    exact ⟨sortDesc_perm _ _, sortDesc_sorted _ _, fun k => sortDesc_stable _ _ k⟩
  · decide

/-- C2 counterexample: the claim says the replacement field is inserted as raw
literal text even when it contains `$` followed by `&`.  In fact the code uses
JavaScript's `String.prototype.replace`, which expands `$&` to the matched
substring: replacing `"a"` by `"$&"` in `"a"` yields `"a"`, not `"$&"`. -/
theorem C2_counterexample :
    performLocalTransformation "a" TestMode.SIL [⟨"1", "a", "$&", none⟩] = ⟨"a", 1⟩
    ∧ ("a" : String) ≠ "$&" :=
  ⟨by decide, by decide⟩

/-- C2 amended: every matched occurrence is replaced by the rule's replacement
field inserted verbatim provided no `$` in the replacement is followed by `$`,
`&`, U+0060 or U+0027 (JavaScript's substitution patterns); under that proviso
the engine coincides with the literal-insertion engine
`performLiteralTransformation`. -/
theorem C2_literal_replacement_amended (code : String) (mode : TestMode)
    (mappings : List SignalMapping)
    (h : ∀ r ∈ mappings, noSpecialDollar (targetOf mode r).toList = true) :
    performLocalTransformation code mode mappings
      = performLiteralTransformation code mode mappings := by
  have hfold : ∀ (l : List SignalMapping),
      (∀ r ∈ l, noSpecialDollar (targetOf mode r).toList = true) →
      ∀ st : String × Nat,
        l.foldl (applyRule mode) st = l.foldl (applyRuleLiteral mode) st := by
    intro l
    induction l with
    | nil =>
      intro _ st
      rfl
    | cons r rest ih =>
      intro hl st
      rw [List.foldl_cons, List.foldl_cons,
        applyRule_literal mode st r (hl r (List.mem_cons_self _ _))]
      exact ih (fun s hs => hl s (List.mem_cons_of_mem _ hs)) _
  exact congrArg (fun st : String × Nat => (⟨st.1, st.2⟩ : TransformationResult))
    (hfold (sortedMappings mode mappings)
      (fun r hr => h r (mem_sortedMappings.mp hr)) (code, 0))

/-- C2 witness: a concrete replacement with no `$` is inserted verbatim. -/
theorem C2_witness :
    (∀ r ∈ [(⟨"1", "a", "X", none⟩ : SignalMapping)],
        noSpecialDollar (targetOf TestMode.SIL r).toList = true)
    ∧ performLocalTransformation "a" TestMode.SIL [⟨"1", "a", "X", none⟩]
        = performLiteralTransformation "a" TestMode.SIL [⟨"1", "a", "X", none⟩] :=
  ⟨by decide, C2_literal_replacement_amended "a" TestMode.SIL
    [⟨"1", "a", "X", none⟩] (by decide)⟩

/-- C3 counterexample: the round trip fails for a mapping set satisfying the
claim's conditions (a single rule has no prefix/substring conflicts and no
replacement matching another rule's pattern) on a text that already contains
the opposite-domain token: `"b"` transformed SIL then HIL with the rule
`a ↔ b` returns `"a"`, not `"b"`. -/
theorem C3_counterexample :
    (performLocalTransformation
        (performLocalTransformation "b" TestMode.SIL [⟨"1", "a", "b", none⟩]).code
        TestMode.HIL [⟨"1", "a", "b", none⟩]).code ≠ "b" := by
  decide

/-- C3 amended: the round trip holds for mapping sets whose active-mode
patterns and replacements are single characters with pairwise-distinct
patterns, pairwise-distinct replacements, no replacement equal to another
rule's pattern, and no replacement character occurring in the original text.
(The extra restrictions are forced: the counterexample shows opposite-domain
tokens in the text break the round trip, and multi-character replacements
break it through boundary effects, e.g. rule `b ↔ aa` on text `"ab"` gives
`"aaa"` forward and `"ba"` back.) -/
theorem C3_roundtrip_amended (t : String) (mode : TestMode)
    (R : List SignalMapping)
    (h1 : ∀ r ∈ R, (sourceOf mode r).length = 1 ∧ (targetOf mode r).length = 1)
    (h2 : R.Pairwise (fun r s => sourceOf mode r ≠ sourceOf mode s))
    (h3 : R.Pairwise (fun r s => targetOf mode r ≠ targetOf mode s))
    (h4 : R.Pairwise (fun r s =>
        targetOf mode r ≠ sourceOf mode s ∧ targetOf mode s ≠ sourceOf mode r))
    (h5 : ∀ r ∈ R, ∀ ch ∈ (targetOf mode r).toList, ch ∉ t.toList) :
    (performLocalTransformation (performLocalTransformation t mode R).code
        (oppMode mode) R).code = t := by
  have h1' : ∀ r ∈ R,
      (∃ a, (sourceOf mode r).toList = [a]) ∧ ∃ b, (targetOf mode r).toList = [b] := by
    intro r hr
    rcases h1 r hr with ⟨hsa, hsb⟩
    exact ⟨List.length_eq_one.mp (by rw [string_length_toList]; exact hsa),
      List.length_eq_one.mp (by rw [string_length_toList]; exact hsb)⟩
  have h1opp : ∀ r ∈ R,
      (∃ a, (sourceOf (oppMode mode) r).toList = [a])
        ∧ ∃ b, (targetOf (oppMode mode) r).toList = [b] := by
    intro r hr
    rw [sourceOf_opp, targetOf_opp]
    exact ⟨(h1' r hr).2, (h1' r hr).1⟩
  have hkey : ∀ r ∈ R, sortKey mode r = 1 := fun r hr => (h1 r hr).1
  have hkeyopp : ∀ r ∈ R, sortKey (oppMode mode) r = 1 := by
    intro r hr
    unfold sortKey
    rw [sourceOf_opp]
    exact (h1 r hr).2
  apply string_toList_inj
  rw [performLocalTransformation_singleton_code (oppMode mode) R h1opp hkeyopp,
    performLocalTransformation_singleton_code mode R h1' hkey, List.map_map]
  have hpt : ∀ c ∈ t.toList,
      (charSubst (oppMode mode) R ∘ charSubst mode R) c = c := by
    intro c hc
    apply roundtrip_char mode R c h1' h3 h4
    intro r hr hbad
    rcases (h1' r hr).2 with ⟨b, hb⟩
    rw [hb] at hbad
    have hbc : b = c := by simpa using hbad
    exact (h5 r hr b (by rw [hb]; exact List.mem_singleton_self b)) (hbc ▸ hc)
  exact (List.map_congr_left hpt).trans (List.map_id' _)

/-- C3 witness: a concrete single-character rule set round-trips. -/
theorem C3_witness :
    (performLocalTransformation
        (performLocalTransformation "ab ab" TestMode.SIL
          [⟨"1", "a", "x", none⟩, ⟨"2", "b", "y", none⟩]).code
        TestMode.HIL [⟨"1", "a", "x", none⟩, ⟨"2", "b", "y", none⟩]).code = "ab ab" :=
  C3_roundtrip_amended "ab ab" TestMode.SIL
    [⟨"1", "a", "x", none⟩, ⟨"2", "b", "y", none⟩]
    (by decide) (by decide) (by decide) (by decide) (by decide)

/-- C4 counterexample: the claim says the mapping import accepts a payload
only after validating that its elements are rule-shaped records.  The code
checks only `Array.isArray`: a JSON array of numbers is accepted (the store is
replaced and no error is signalled) although its element is not rule-shaped. -/
theorem C4_counterexample :
    handleMappingFileUpload (some (Json.arr [Json.num 3])) [] = ([Json.num 3], false)
    ∧ specRuleShaped (Json.num 3) = false :=
  ⟨rfl, rfl⟩

/-- C4 amended: the import accepts a payload exactly when its parsed root is a
JSON array, storing the elements without validating their shape; on a parse
failure or a non-array root the store is left unchanged and an error is
signalled. -/
theorem C4_import_root_check_amended :
    (∀ store : List Json, handleMappingFileUpload none store = (store, true))
    ∧ (∀ (j : Json) (store : List Json), (∀ elems, j ≠ Json.arr elems) →
        handleMappingFileUpload (some j) store = (store, true))
    ∧ (∀ (elems store : List Json),
        handleMappingFileUpload (some (Json.arr elems)) store = (elems, false)) := by
  refine ⟨fun store => rfl, ?_, fun elems store => rfl⟩
  intro j store hna
  cases j with
  | null => rfl
  | bool b => rfl
  | num n => rfl
  | str s => rfl
  | arr elems => exact absurd rfl (hna elems)
  | obj fields => rfl

/-- C4 witness: a non-array root is rejected and the store kept. -/
theorem C4_witness :
    handleMappingFileUpload (some (Json.num 0)) [Json.str "keep"]
      = ([Json.str "keep"], true) :=
  C4_import_root_check_amended.2.1 (Json.num 0) [Json.str "keep"]
    (fun _ h => Json.noConfusion h)

/-- C5: `transform` is total on well-typed inputs — for every source text,
mode and rule sequence it returns a `TransformationResult` with a
non-negative change count (in this embedding totality is witnessed by the
function being defined for all inputs, with no error case in its type). -/
theorem C5_transform_total (code : String) (mode : TestMode)
    (mappings : List SignalMapping) :
    ∃ (text : String) (n : Nat),
      performLocalTransformation code mode mappings = ⟨text, n⟩ ∧ 0 ≤ n :=
  ⟨(performLocalTransformation code mode mappings).code,
    (performLocalTransformation code mode mappings).changes, rfl, Nat.zero_le _⟩

/-- C6: the `performTransformation` function embedded in the exported batch
CLI script returns exactly the same `TransformationResult` as the interactive
engine's `performLocalTransformation`, for every source text, mode and rule
sequence (its `(x || "").length` sort key and its string-valued mode argument
coincide with the interactive engine's on well-typed rules). -/
theorem C6_cli_engine_equivalent (code : String) (mode : TestMode)
    (mappings : List SignalMapping) :
    performTransformation code (modeString mode) mappings
      = performLocalTransformation code mode mappings := by
  unfold performTransformation performLocalTransformation sortedMappings
  rw [cliSortKey_modeString, cliApplyRule_modeString]

/-- C7 counterexample: the claim says fewer than 2 positional (non-option)
arguments print usage and exit 1.  The script counts every argument: with one
file path plus `--mode=SIL` (one positional argument) it proceeds, treats
`--mode=SIL` as the output path and succeeds. -/
theorem C7_counterexample :
    cliMain [] (fun p => if p = "in.can" then some "x" else none) (fun _ => none)
        ["in.can", "--mode=SIL"]
      = CliOutcome.success "--mode=SIL" "x" 0 0
    ∧ (["in.can", "--mode=SIL"].filter
        (fun a => !(strStartsWith a "--"))).length < 2
    ∧ CliOutcome.success "--mode=SIL" "x" 0 0 ≠ CliOutcome.usageExit :=
  ⟨by decide, by decide, by decide⟩

/-- C7 amended: with fewer than 2 arguments in total (option flags counted),
the CLI prints usage and exits with code 1. -/
theorem C7_usage_check_amended (embedded : List SignalMapping)
    (readFile : String → Option String) (parseJson : String → Option Json)
    (args : List String) (h : args.length < 2) :
    cliMain embedded readFile parseJson args = CliOutcome.usageExit := by
  unfold cliMain
  rw [if_pos h]

/-- C7 witness: no arguments at all yield the usage exit. -/
theorem C7_witness :
    ([] : List String).length < 2
    ∧ cliMain [] (fun _ => none) (fun _ => none) [] = CliOutcome.usageExit :=
  ⟨by decide, C7_usage_check_amended [] (fun _ => none) (fun _ => none) [] (by decide)⟩

/-- C8: the engine escapes every regex metacharacter, so every pattern is
matched as exact literal text: the escaped form of any pattern denotes
exactly that literal string, and concretely the rule `EngineMsg.Torque`
(containing `.`) does not match `"EngineMsgXTorque"` but does replace the
literal `"EngineMsg.Torque"`. -/
theorem C8_metachar_literal :
    (∀ l : List Char, regexLiteral (escapeRegex l) = some l)
    ∧ performLocalTransformation "EngineMsgXTorque" TestMode.SIL
        [⟨"2", "EngineMsg.Torque", "sysvar::Powertrain::Torque", none⟩]
        = ⟨"EngineMsgXTorque", 0⟩
    ∧ performLocalTransformation "EngineMsg.Torque" TestMode.SIL
        [⟨"2", "EngineMsg.Torque", "sysvar::Powertrain::Torque", none⟩]
        = ⟨"sysvar::Powertrain::Torque", 1⟩ :=
  ⟨regexLiteral_escapeRegex, by decide, by decide⟩

/-- C9: a rule with an empty `realSignal` or an empty `simSignal` is inert in
both modes: deleting it from the rule sequence (wherever it occurs) does not
change the transformation result at all, so it contributes no replacement and
0 to the change count. -/
theorem C9_inert_rule (code : String) (mode : TestMode) (r : SignalMapping)
    (pre post : List SignalMapping)
    (h : r.realSignal = "" ∨ r.simSignal = "") :
    performLocalTransformation code mode (pre ++ r :: post)
      = performLocalTransformation code mode (pre ++ post) := by
  rw [performLocalTransformation_filter code mode (pre ++ r :: post),
    performLocalTransformation_filter code mode (pre ++ post),
    List.filter_append, List.filter_append, List.filter_cons,
    if_neg (by simp [activeRule_false_of_empty mode r h])]

/-- C9 witness: a rule with empty `realSignal` is dropped without effect. -/
theorem C9_witness :
    ((⟨"9", "", "X", none⟩ : SignalMapping).realSignal = ""
      ∨ (⟨"9", "", "X", none⟩ : SignalMapping).simSignal = "")
    ∧ performLocalTransformation "a" TestMode.SIL
        [⟨"1", "a", "b", none⟩, ⟨"9", "", "X", none⟩]
      = performLocalTransformation "a" TestMode.SIL [⟨"1", "a", "b", none⟩] :=
  ⟨Or.inl rfl, C9_inert_rule "a" TestMode.SIL ⟨"9", "", "X", none⟩
    [⟨"1", "a", "b", none⟩] [] (Or.inl rfl)⟩

/-- C10: if `transform` reports `changes = 0` then the returned code is the
input text unchanged (a rule only rewrites the text in the branch that also
increases the change count). -/
theorem C10_zero_changes_id (code : String) (mode : TestMode)
    (mappings : List SignalMapping)
    (h : (performLocalTransformation code mode mappings).changes = 0) :
    (performLocalTransformation code mode mappings).code = code :=
  foldl_applyRule_changes_eq mode (sortedMappings mode mappings) (code, 0) h

/-- C10 witness: an empty rule set reports 0 changes and returns the text. -/
theorem C10_witness :
    (performLocalTransformation "x" TestMode.SIL []).changes = 0
    ∧ (performLocalTransformation "x" TestMode.SIL []).code = "x" :=
  ⟨by decide, C10_zero_changes_id "x" TestMode.SIL [] (by decide)⟩
